import Mathlib

/-!
Shallow embedding of the blf2mdf decoding pipeline (src/main.rs, src/blf_reader.rs,
src/data_store.rs) together with proofs about the claims of its specification.

Modelling conventions:
* bytes are natural numbers (`< 256`) in `List Nat` buffers;
* machine integers are `Nat`/`Int`, with explicit reduction modulo `2 ^ w`
  wherever a Rust `as` cast or release-mode overflow can wrap;
* Rust `/` and `%` on `i64` truncate toward zero, so they are `Int.tdiv` and
  `Int.tmod`; the `as usize` cast of an `i64` takes the two's-complement bits,
  i.e. `(· % 2 ^ 64).toNat` on the Euclidean remainder;
* `f64` values appear in two roles: pipeline arithmetic (timestamps and
  factor/offset scaling) is modelled over `ℚ`, exact on the values the claims
  exercise, while the data-store serialiser only ever touches an `f64` through
  its 64-bit pattern (`to_le_bytes`, `partial_cmp`), so there a timestamp is
  the bit pattern itself, a `Nat < 2 ^ 64`.
-/

namespace Blf2Mdf

/-- Reinterpretation of a `u64` bit pattern `as i64` (two's complement). -/
def u64AsI64 (x : Nat) : Int :=
  if x < 2 ^ 63 then (x : Int) else (x : Int) - 2 ^ 64

/-- Rust release-mode `i64` arithmetic wraps modulo `2 ^ 64` into `[-2^63, 2^63)`. -/
def wrapI64 (z : Int) : Int := (z + 2 ^ 63) % 2 ^ 64 - 2 ^ 63

/-- `data.len() as i64 * 8` from `extract_signal_raw` (src/main.rs:160);
the `i64` multiplication wraps in release mode. -/
def totalBits (data : List Nat) : Int := wrapI64 ((data.length : Int) * 8)

/-- One probe of the extraction loops (src/main.rs:180-188 and 199-207):
`byte_index = (absolute_bit / 8) as usize`, `bit_in_byte = absolute_bit % 8`,
then `(data[byte_index] >> bit_in_byte) & 1` guarded by `byte_index < data.len()`.
Rust `/`/`%` on `i64` truncate toward zero; the `as usize` cast wraps modulo
`2 ^ 64`; a release-mode shift of a `u8` masks its amount to the low 3 bits
(relevant only when `absolute_bit` is negative).  Out-of-range probes contribute
bit value 0, matching the source where the guard skips the `result` update. -/
def bitValue (data : List Nat) (absoluteBit : Int) : Nat :=
  let byteIndex : Nat := (((absoluteBit.tdiv 8) % 2 ^ 64).toNat)
  if byteIndex < data.length then
    (data.getD byteIndex 0 >>> (((absoluteBit.tmod 8) % 8).toNat)) &&& 1
  else 0

/-- Intel (little-endian, LSB first) loop of `extract_signal_raw`
(src/main.rs:193-208): the pending `bit_index` values are processed in order and
`absolute_bit >= total_bits` breaks out of the loop. -/
def leLoop (data : List Nat) (startBit : Int) (result : Nat) : List Nat → Nat
  | [] => result
  | bitIndex :: rest =>
    let absoluteBit := wrapI64 (startBit + bitIndex)
    if absoluteBit ≥ totalBits data then result
    else
      leLoop data startBit
        (if bitValue data absoluteBit ≠ 0 then result ||| (1 <<< bitIndex) else result) rest

/-- Motorola (big-endian, MSB first) loop of `extract_signal_raw`
(src/main.rs:174-189): `absolute_bit >= total_bits` only skips the iteration. -/
def beLoop (data : List Nat) (startBit : Int) (result : Nat) : List Nat → Nat
  | [] => result
  | bitIndex :: rest =>
    let absoluteBit := wrapI64 (startBit - bitIndex)
    if absoluteBit ≥ totalBits data then beLoop data startBit result rest
    else
      beLoop data startBit
        (if bitValue data absoluteBit ≠ 0 then result ||| (1 <<< bitIndex) else result) rest

/-- Shallow embedding of `extract_signal_raw` (src/main.rs:151-212).
`0..bit_count` over `i64` iterates `0, 1, …, bit_count - 1` and is empty for a
non-positive bound, hence `List.range bitCount.toNat`. -/
def extract_signal_raw (data : List Nat) (startBit bitCount : Int)
    (isBigEndian : Bool) : Option Nat :=
  if bitCount = 0 ∨ bitCount > 64 then none
  else if startBit ≥ totalBits data then none
  else if isBigEndian then
    if startBit < wrapI64 (bitCount - 1) then none
    else some (beLoop data startBit 0 (List.range bitCount.toNat))
  else some (leLoop data startBit 0 (List.range bitCount.toNat))

/-- Signed conversion of `process_signal` (src/main.rs:235-254): mask to
`bit_count` bits, test the sign bit, and OR in `!((1u64 << bit_count) - 1)`
before reinterpreting `as i64`.  Shift amounts of the `u64` shifts are masked
to 6 bits as in release mode (relevant only for `bit_count ≤ 0`). -/
def toSigned (raw : Nat) (bitCount : Int) : Int :=
  if bitCount < 64 then
    let mask := (1 <<< ((bitCount % 64).toNat)) - 1
    let maskedValue := raw &&& mask
    let signBit := 1 <<< (((bitCount - 1) % 64).toNat)
    if maskedValue &&& signBit ≠ 0 then
      u64AsI64 (maskedValue ||| ((2 ^ 64 - 1) - mask))
    else (maskedValue : Int)
  else u64AsI64 raw

/-! ## Pipeline model: `process_signal` and the frame loop of `process_file` -/

/-- Value pushed to the data store by `process_signal`: `push_int`, `push_uint`
or `push_float`.  The `f64` physical value is modelled exactly over `ℚ`. -/
inductive StoreVal where
  | intVal (v : Int)
  | uintVal (v : Nat)
  | floatVal (v : ℚ)
deriving DecidableEq

/-- One push into the `DataStore`, in chronological push order. -/
structure Push where
  name : String
  timestamp : ℚ
  value : StoreVal
deriving DecidableEq

/-- Rust `f64 as u64` cast: saturating — a negative value gives `0`, a value
at or above `2^64` gives `u64::MAX`, otherwise truncation toward zero. -/
def f64ToU64 (q : ℚ) : Nat := if q < 0 then 0 else min ⌊q⌋.toNat (2 ^ 64 - 1)

/-- Truncation of a rational toward zero (`f64::trunc`). -/
def ratTrunc (q : ℚ) : Int := if q < 0 then -⌊-q⌋ else ⌊q⌋

/-- Rust `f64 as i64` cast: saturating truncation toward zero. -/
def f64ToI64 (q : ℚ) : Int := max (-(2 ^ 63)) (min (ratTrunc q) (2 ^ 63 - 1))

/-- `q.fract() != 0.0` for a finite float: true iff `q` is not an integer. -/
def fractNonzero (q : ℚ) : Bool := decide ((ratTrunc q : ℚ) ≠ q)

/-- Shallow embedding of `process_signal` (src/main.rs:214-272).  The store is
the list of pushes in push order.  Release-mode `i64`/`u64` overflow wraps and
the `factor as i64` / `offset as u64` casts saturate. -/
def process_signal (msgData : List Nat) (startBit bitCount : Int)
    (isBigEndian isSigned storeAsFloat : Bool) (factor offset : ℚ)
    (signalName : String) (msgTimestamp : ℚ) (dataStore : List Push) : List Push :=
  match extract_signal_raw msgData startBit bitCount isBigEndian with
  | none => dataStore
  | some rawValue =>
    if isSigned then
      let signedValue := toSigned rawValue bitCount
      if storeAsFloat then
        dataStore ++ [⟨signalName, msgTimestamp, .floatVal ((signedValue : ℚ) * factor + offset)⟩]
      else
        dataStore ++ [⟨signalName, msgTimestamp,
          .intVal (wrapI64 (f64ToI64 factor * signedValue + f64ToI64 offset))⟩]
    else
      if storeAsFloat then
        dataStore ++ [⟨signalName, msgTimestamp, .floatVal ((rawValue : ℚ) * factor + offset)⟩]
      else
        dataStore ++ [⟨signalName, msgTimestamp,
          .uintVal ((f64ToU64 factor * rawValue + f64ToU64 offset) % 2 ^ 64)⟩]

/-- `can_dbc::MultiplexIndicator` as consumed by `process_file`; `other` stands
for the exotic indicators the source logs and skips. -/
inductive MuxKind where
  | plain
  | multiplexor
  | multiplexedSignal (k : Nat)
  | other
deriving DecidableEq

/-- DBC signal descriptor as read by the signal loop of `process_file`.
`isFloat` is the precomputed outcome of the `extended_value_type_for_signal`
scan over the bus's DBCs (src/main.rs:382-391): true iff some DBC declares a
non-integer extended value type for this signal. -/
structure DbcSignal where
  name : String
  startBit : Int
  bitCount : Int
  isBigEndian : Bool
  isSigned : Bool
  isFloat : Bool
  factor : ℚ
  offset : ℚ
  mux : MuxKind

/-- DBC message together with the outcome of `dbc.message_multiplexor_switch`
(src/main.rs:350-370): `Err` aborts the frame, `Ok None` yields switch value 0,
`Ok (Some s)` extracts the switch signal from the frame data. -/
structure DbcMessage where
  signals : List DbcSignal
  muxSwitch : Except Unit (Option DbcSignal)

/-- Per-bus `message_id → DbcMessage` index (`dbc_messages_maps`,
src/main.rs:280-296). -/
abbrev BusIndex := List (Nat × DbcMessage)

/-- Raw CAN frame as yielded by the BLF reader to `process_file`. -/
structure CanFrame where
  timestamp : ℚ
  arbitrationId : Nat
  data : List Nat
  channel : Nat

/-- Mutable state of the frame loop: the `first_timestamp` sentinel
(`f64::MAX`, modelled as `none`) and the pushes made so far. -/
structure ProcessState where
  firstTimestamp : Option ℚ
  pushes : List Push

/-- Body of the signal loop after the bus-claim check (src/main.rs:381-423):
skip float signals, compute `store_as_float`, gate on the multiplex indicator,
and run `process_signal`. -/
def signalBody (msgData : List Nat) (currentMuxValue : Nat) (msgTimestamp : ℚ)
    (pushes : List Push) (signal : DbcSignal) : List Push :=
  if signal.isFloat then pushes
  else
    let storeAsFloat := signal.isFloat || fractNonzero signal.factor ||
      fractNonzero signal.offset
    match signal.mux with
    | .plain | .multiplexor =>
      process_signal msgData signal.startBit signal.bitCount signal.isBigEndian
        signal.isSigned storeAsFloat signal.factor signal.offset signal.name
        msgTimestamp pushes
    | .multiplexedSignal muxIdx =>
      if muxIdx = currentMuxValue then
        process_signal msgData signal.startBit signal.bitCount signal.isBigEndian
          signal.isSigned storeAsFloat signal.factor signal.offset signal.name
          msgTimestamp pushes
      else pushes
    | .other => pushes

/-- One iteration of the signal loop (src/main.rs:373-424), starting with the
bus-deduplication check against `signal_bus_map` (src/main.rs:375-379). -/
def signalStep (signalBusMap : List (String × Nat)) (busIdx : Nat)
    (msgData : List Nat) (currentMuxValue : Nat) (msgTimestamp : ℚ)
    (pushes : List Push) (signal : DbcSignal) : List Push :=
  match signalBusMap.lookup signal.name with
  | some claimedBus =>
    if busIdx ≠ claimedBus then pushes
    else signalBody msgData currentMuxValue msgTimestamp pushes signal
  | none => signalBody msgData currentMuxValue msgTimestamp pushes signal

/-- One iteration of the frame loop of `process_file` (src/main.rs:318-425).
`dbcs[bus_idx]` at src/main.rs:330 is an unchecked index: a channel at or past
the number of buses panics, modelled as `Except.error`.  Timestamp rebasing
(src/main.rs:333-338) happens before the message-index lookup, so even a frame
whose arbitration id is unknown sets `first_timestamp`. -/
def processFrame (buses : List BusIndex) (signalBusMap : List (String × Nat))
    (st : ProcessState) (msg : CanFrame) : Except Unit ProcessState :=
  let busIdx := msg.channel
  if hbus : busIdx < buses.length then
    let firstTimestamp := st.firstTimestamp.getD msg.timestamp
    let msgTimestamp := msg.timestamp - firstTimestamp
    let st1 : ProcessState := ⟨some firstTimestamp, st.pushes⟩
    match (buses.get ⟨busIdx, hbus⟩).lookup msg.arbitrationId with
    | none => .ok st1
    | some dbcMsg =>
      match dbcMsg.muxSwitch with
      | .error _ => .ok st1
      | .ok muxOpt =>
        let currentMux? : Option Nat :=
          match muxOpt with
          | some muxSignal =>
            extract_signal_raw msg.data muxSignal.startBit muxSignal.bitCount
              muxSignal.isBigEndian
          | none => some 0
        match currentMux? with
        | none => .ok st1
        | some currentMuxValue =>
          .ok ⟨st1.firstTimestamp,
            dbcMsg.signals.foldl
              (signalStep signalBusMap busIdx msg.data currentMuxValue msgTimestamp)
              st1.pushes⟩
  else .error ()

/-- One step of the frame loop fold: a panic (index out of bounds) aborts the
remaining frames, otherwise the next frame is processed. -/
def frameStep (buses : List BusIndex) (acc : Except Unit ProcessState)
    (msg : CanFrame) : Except Unit ProcessState :=
  match acc with
  | .error e => .error e
  | .ok st => processFrame buses [] st msg

/-- Frame loop of `process_file` over the frames yielded by the reader.
`signal_bus_map` is created empty at src/main.rs:299 and never inserted into,
hence the literal `[]` passed to every iteration. -/
def processFrames (buses : List BusIndex) (frames : List CanFrame) :
    Except Unit ProcessState :=
  frames.foldl (frameStep buses) (.ok ⟨none, []⟩)

/-- Frame-level skip rules as the specification states them: a frame is accepted
when its channel is within the configured buses and its arbitration id is in
that bus's message index.  Spec-side definition used to state claims about the
"first accepted frame". -/
def acceptedFrames (buses : List BusIndex) (frames : List CanFrame) : List CanFrame :=
  frames.filter (fun m =>
    decide (m.channel < buses.length) &&
      ((buses.getD m.channel []).lookup m.arbitrationId).isSome)

/-! ## Container reader model: `parse_container_data` (src/blf_reader.rs) -/

/-- Inner CAN message as produced by `parse_message_by_type`.  The source stores
`timestamp : f64 = raw * factor(flags) + start_timestamp`; since the factor is
selected by the extended-header `flags` word and `start_timestamp` is fixed per
file, the pair `(tsFlags, tsRaw)` determines that float and is what the model
carries. -/
structure CanMessage where
  tsFlags : Nat
  tsRaw : Nat
  arbitrationId : Nat
  isExtendedId : Bool
  isRemoteFrame : Bool
  isRx : Bool
  isFd : Bool
  isErrorFrame : Bool
  dlc : Nat
  data : List Nat
  channel : Nat
  bitrateSwitch : Bool
  errorStateIndicator : Bool
deriving DecidableEq

/-- Little-endian 16-bit read at byte offset `i` (out-of-range bytes read as 0;
the source's slices are always in range where this is used). -/
def readU16 (d : List Nat) (i : Nat) : Nat := d.getD i 0 + 2 ^ 8 * d.getD (i + 1) 0

/-- Little-endian 32-bit read at byte offset `i`. -/
def readU32 (d : List Nat) (i : Nat) : Nat := readU16 d i + 2 ^ 16 * readU16 d (i + 2)

/-- Little-endian 64-bit read at byte offset `i`. -/
def readU64 (d : List Nat) (i : Nat) : Nat := readU32 d i + 2 ^ 32 * readU32 d (i + 4)

/-- The four bytes of the ASCII signature `LOBJ`. -/
def lobjPat : List Nat := [76, 79, 66, 74]

/-- `find_pattern` (src/blf_reader.rs:360-362): position of the first
`pattern`-sized window of `data` equal to `pattern`. -/
def find_pattern (data pattern : List Nat) : Option Nat :=
  (List.range (data.length + 1 - pattern.length)).find?
    (fun o => (data.drop o).take pattern.length == pattern)

/-- `parse_message_by_type` (src/blf_reader.rs:284-357) for the supported inner
object types `CAN_MESSAGE = 1`, `CAN_MESSAGE2 = 86` and `CAN_ERROR_EXT = 73`;
every other type yields nothing.  `(channel - 1) as u8` truncates the `u16`
difference to a byte. -/
def parse_message_by_type (objType : Nat) (data : List Nat) (tsFlags tsRaw : Nat) :
    Option CanMessage :=
  if objType = 1 ∨ objType = 86 then
    if data.length < 16 then none
    else
      let channel := readU16 data 0
      let flags := data.getD 2 0
      let dlc := data.getD 3 0
      let canId := readU32 data 4
      let dataEnd := min (8 + dlc) (min (8 + 8) data.length)
      some { tsFlags, tsRaw,
             arbitrationId := canId &&& 0x1FFFFFFF,
             isExtendedId := canId &&& 0x80000000 ≠ 0,
             isRemoteFrame := flags &&& 0x80 ≠ 0,
             isRx := flags &&& 0x1 = 0,
             isFd := false, isErrorFrame := false, dlc,
             data := (data.take dataEnd).drop 8,
             channel := if channel > 0 then (channel - 1) % 2 ^ 8 else 0,
             bitrateSwitch := false, errorStateIndicator := false }
  else if objType = 73 then
    if data.length < 26 then none
    else
      let channel := readU16 data 0
      let dlc := data.getD 5 0
      let canId := readU32 data 12
      let dataEnd := min (26 + dlc) data.length
      some { tsFlags, tsRaw,
             arbitrationId := canId &&& 0x1FFFFFFF,
             isExtendedId := canId &&& 0x80000000 ≠ 0,
             isRemoteFrame := false,
             isRx := true,
             isFd := false, isErrorFrame := true, dlc,
             data := if 26 < data.length then (data.take dataEnd).drop 26 else [],
             channel := if channel > 0 then (channel - 1) % 2 ^ 8 else 0,
             bitrateSwitch := false, errorStateIndicator := false }
  else none

/-- Persistent reader state across containers: the carry-over `tail` buffer and
the `pos` field (src/blf_reader.rs:48-49).  `pos` is only ever assigned inside
the object loop, so it persists between calls when the loop body never runs. -/
structure ReaderState where
  tail : List Nat
  pos : Nat
deriving DecidableEq

/-- Object loop of `parse_container_data` (src/blf_reader.rs:194-271).  Each
iteration first saves the cursor into `self.pos`, then searches for `LOBJ`
within an 8-byte window, reads the base header, breaks when the object would
cross the end of the buffer, skips unknown header versions, and otherwise reads
the 16-byte extended header and the message body.  `fuel` bounds the number of
iterations; the Rust loop can fail to terminate only on malformed headers
(`obj_size = 0`), and every run in this development exits through one of the
source's own conditions before the fuel runs out. -/
def parseLoop (fullData : List Nat) (fuel pos selfPos : Nat)
    (messages : List CanMessage) : List CanMessage × Nat :=
  match fuel with
  | 0 => (messages, selfPos)
  | fuel + 1 =>
    let maxPos := fullData.length
    if pos + 16 ≤ maxPos then
      let selfPos := pos
      match find_pattern ((fullData.drop pos).take (min (pos + 8) maxPos - pos)) lobjPat with
      | none =>
        if pos + 8 > maxPos then (messages, selfPos)
        else parseLoop fullData fuel (pos + 1) selfPos messages
      | some offset =>
        let pos := pos + offset
        if pos + 16 > maxPos then (messages, selfPos)
        else if ((fullData.drop pos).take 4 == lobjPat) = false then
          parseLoop fullData fuel (pos + 1) selfPos messages
        else
          let headerVersion := readU16 fullData (pos + 6)
          let objSize := readU32 fullData (pos + 8)
          let objType := readU32 fullData (pos + 12)
          let nextPos := pos + objSize
          if nextPos > maxPos then (messages, selfPos)
          else
            let pos := pos + 16
            if headerVersion = 1 ∨ headerVersion = 2 then
              if pos + 16 > maxPos then (messages, selfPos)
              else
                let flags := readU32 fullData pos
                let ts := readU64 fullData (pos + 8)
                let pos := pos + 16
                let messages :=
                  match parse_message_by_type objType ((fullData.take nextPos).drop pos)
                      flags ts with
                  | some msg => messages ++ [msg]
                  | none => messages
                parseLoop fullData fuel nextPos selfPos messages
            else parseLoop fullData fuel nextPos selfPos messages
    else (messages, selfPos)

/-- `parse_container_data` (src/blf_reader.rs:178-282): prepend the carried
tail, run the object loop, and keep `full_data[self.pos ..]` as the new tail
(the source's `if remaining_data.len() > 0` writes that slice in both
branches). -/
def parse_container_data (st : ReaderState) (data : List Nat) :
    List CanMessage × ReaderState :=
  let fullData := st.tail ++ data
  let r := parseLoop fullData (fullData.length + 1) 0 st.pos []
  (r.1, ⟨fullData.drop r.2, r.2⟩)

/-- Reading a sequence of decompressed container payloads in order, as
`read_messages` does for consecutive `LOG_CONTAINER` objects, concatenating the
yielded messages. -/
def readContainers (st : ReaderState) (payloads : List (List Nat)) :
    List CanMessage × ReaderState :=
  payloads.foldl
    (fun acc payload =>
      let r := parse_container_data acc.2 payload
      (acc.1 ++ r.1, r.2))
    ([], st)

/-- Fresh reader: empty tail, `pos = 0` (src/blf_reader.rs:86-91). -/
def initialReader : ReaderState := ⟨[], 0⟩

/-! ## Data store model: `sort_by_timestamp` and `write_to_stream`
(src/data_store.rs).  The serialiser touches an `f64` only through its 64-bit
pattern (`to_le_bytes`) and through `partial_cmp`, so a timestamp here is the
bit pattern, a `Nat < 2 ^ 64`. -/

/-- NaN test on an `f64` bit pattern: exponent all ones with a non-zero
mantissa. -/
def f64IsNan (x : Nat) : Bool := x / 2 ^ 52 % 2 ^ 11 = 2047 && x % 2 ^ 52 ≠ 0

/-- Order key of a non-NaN `f64` bit pattern: magnitude bits, negated for a set
sign bit.  IEEE ordering of non-NaN doubles coincides with the order of this
key (`+0.0` and `-0.0` both map to 0). -/
def f64Key (x : Nat) : Int :=
  if x / 2 ^ 63 % 2 = 0 then (x % 2 ^ 63 : Int) else -(x % 2 ^ 63 : Int)

/-- `a.partial_cmp(&b).unwrap_or(Ordering::Equal)` on `f64` bit patterns
(src/data_store.rs:68-74): any NaN compares as `Equal`. -/
def f64CmpEq (a b : Nat) : Ordering :=
  if f64IsNan a || f64IsNan b then .eq else compare (f64Key a) (f64Key b)

/-- IEEE `<=` on `f64` bit patterns: false when either side is NaN. -/
def f64Le (a b : Nat) : Bool := !f64IsNan a && !f64IsNan b && f64Key a ≤ f64Key b

/-- Rust's stable `sort_by` orders `a` before `b` when the comparator does not
answer `Greater`. -/
def pointLe {α : Type} (a b : Nat × α) : Bool := f64CmpEq a.1 b.1 ≠ Ordering.gt

/-- Stable sort of one series' points by the `sort_by_timestamp` comparator;
`List.mergeSort` is stable, like Rust's `sort_by`. -/
def sortPoints {α : Type} (points : List (Nat × α)) : List (Nat × α) :=
  points.mergeSort pointLe

/-- Points of one series: the four value kinds `write_to_stream` recognises
(`Vec<DataPoint<T>>` for `T ∈ {i64, u64, f64, String}`).  An `f64` value and a
timestamp are bit patterns; a string is its UTF-8 bytes. -/
inductive SeriesData where
  | i64Series (points : List (Nat × Int))
  | u64Series (points : List (Nat × Nat))
  | f64Series (points : List (Nat × Nat))
  | stringSeries (points : List (Nat × List Nat))
deriving DecidableEq

/-- The store: signal name bytes paired with the series, in the iteration
order of the underlying map. -/
abbrev DataStore := List (List Nat × SeriesData)

/-- Sort of one series (src/data_store.rs:64-77). -/
def sortSeries : SeriesData → SeriesData
  | .i64Series points => .i64Series (sortPoints points)
  | .u64Series points => .u64Series (sortPoints points)
  | .f64Series points => .f64Series (sortPoints points)
  | .stringSeries points => .stringSeries (sortPoints points)

/-- `sort_by_timestamp` (src/data_store.rs:64-77): every series is sorted in
place by timestamp. -/
def sort_by_timestamp (store : DataStore) : DataStore :=
  store.map (fun e => (e.1, sortSeries e.2))

/-- Timestamps of a series in point order. -/
def seriesTimestamps : SeriesData → List Nat
  | .i64Series points => points.map Prod.fst
  | .u64Series points => points.map Prod.fst
  | .f64Series points => points.map Prod.fst
  | .stringSeries points => points.map Prod.fst

/-- Subsequence of a series whose timestamps have order key `k` — the points
that are mutually equal under the sort comparator. -/
def filterKey (k : Int) : SeriesData → SeriesData
  | .i64Series points => .i64Series (points.filter (fun p => f64Key p.1 = k))
  | .u64Series points => .u64Series (points.filter (fun p => f64Key p.1 = k))
  | .f64Series points => .f64Series (points.filter (fun p => f64Key p.1 = k))
  | .stringSeries points => .stringSeries (points.filter (fun p => f64Key p.1 = k))

/-- Little-endian byte decomposition: `n` bytes of `v` (higher bytes of `v`
are discarded, as the truncating `as` casts of the source do). -/
def leBytes : Nat → Nat → List Nat
  | 0, _ => []
  | n + 1, v => v % 2 ^ 8 :: leBytes n (v / 2 ^ 8)

/-- `i64::to_le_bytes`: the two's-complement pattern, little-endian. -/
def i64LeBytes (v : Int) : List Nat := leBytes 8 (v % 2 ^ 64).toNat

/-- The magic bytes `b"BLF2MDF\x01"` (src/data_store.rs:86). -/
def magicBytes : List Nat := [0x42, 0x4C, 0x46, 0x32, 0x4D, 0x44, 0x46, 0x01]

/-- Serialisation of one series by `write_to_stream` (src/data_store.rs:91-147):
name length as `u16`, name bytes, one type-marker byte, point count as `u32`,
then the points — `f64` timestamp plus 8 value bytes for the numeric kinds, or
timestamp, `u16` length and UTF-8 bytes for strings. -/
def writeSeriesBytes (e : List Nat × SeriesData) : List Nat :=
  leBytes 2 e.1.length ++ e.1 ++
    match e.2 with
    | .i64Series points =>
      1 :: leBytes 4 points.length ++
        (points.map (fun p => leBytes 8 p.1 ++ i64LeBytes p.2)).flatten
    | .u64Series points =>
      2 :: leBytes 4 points.length ++
        (points.map (fun p => leBytes 8 p.1 ++ leBytes 8 p.2)).flatten
    | .f64Series points =>
      3 :: leBytes 4 points.length ++
        (points.map (fun p => leBytes 8 p.1 ++ leBytes 8 p.2)).flatten
    | .stringSeries points =>
      4 :: leBytes 4 points.length ++
        (points.map (fun p => leBytes 8 p.1 ++ (leBytes 2 p.2.length ++ p.2))).flatten

/-- `write_to_stream` (src/data_store.rs:79-151): sort every series, then emit
magic, series count and the series bodies into the byte stream. -/
def write_to_stream (store : DataStore) : List Nat :=
  let sorted := sort_by_timestamp store
  magicBytes ++ leBytes 4 sorted.length ++ (sorted.map writeSeriesBytes).flatten

/-! ## Spec-side definitions used to state the claims -/

/-- Packing for the round-trip claim: `value` written LSB-first at bit offset
`startBit` into a zeroed buffer of `⌈(startBit + bitCount) / 8⌉` bytes; byte
`j` of the buffer holds bits `8j .. 8j+7` of `value * 2 ^ startBit`. -/
def packLE (value startBit bitCount : Nat) : List Nat :=
  (List.range ((startBit + bitCount + 7) / 8)).map
    (fun j => value * 2 ^ startBit / 2 ^ (8 * j) % 2 ^ 8)

/-- Two's-complement interpretation of the low `w` bits of `raw`, as the sign
extension claim states it. -/
def twosComplement (raw w : Nat) : Int :=
  if raw % 2 ^ w < 2 ^ (w - 1) then ((raw % 2 ^ w : Nat) : Int)
  else ((raw % 2 ^ w : Nat) : Int) - 2 ^ w

/-- Magic bytes of the output stream as §6 of the specification spells them:
the ASCII of `BLF2MDF` followed by the version byte 1. -/
def specMagic : List Nat := [66, 76, 70, 50, 77, 68, 70, 1]

/-- Kind byte of §6: 1=I64, 2=U64, 3=F64, 4=String. -/
def specKindByte : SeriesData → Nat
  | .i64Series _ => 1
  | .u64Series _ => 2
  | .f64Series _ => 3
  | .stringSeries _ => 4

/-- Number of points of a series (`point_cnt` of §6). -/
def specPointCount : SeriesData → Nat
  | .i64Series points => points.length
  | .u64Series points => points.length
  | .f64Series points => points.length
  | .stringSeries points => points.length

/-- Point payload of §6: for kinds 1/2/3 each point is the `f64` timestamp then
8 little-endian value bytes; for kind 4 the timestamp, a `u16` length and that
many UTF-8 bytes. -/
def specPointsBytes : SeriesData → List Nat
  | .i64Series points => (points.map (fun p => leBytes 8 p.1 ++ i64LeBytes p.2)).flatten
  | .u64Series points => (points.map (fun p => leBytes 8 p.1 ++ leBytes 8 p.2)).flatten
  | .f64Series points => (points.map (fun p => leBytes 8 p.1 ++ leBytes 8 p.2)).flatten
  | .stringSeries points =>
    (points.map (fun p => leBytes 8 p.1 ++ leBytes 2 p.2.length ++ p.2)).flatten

/-- Output framing as §6 of the specification tabulates it: magic, `signal_cnt`
as `u32`, then per signal `name_len` as `u16`, the name bytes, the kind byte,
`point_cnt` as `u32` and the point payload. -/
def specStream (store : DataStore) : List Nat :=
  specMagic ++ leBytes 4 store.length ++
    (store.map (fun e =>
      leBytes 2 e.1.length ++ e.1 ++ specKindByte e.2 :: leBytes 4 (specPointCount e.2) ++
        specPointsBytes e.2)).flatten

/-! ## Concrete inputs used by counterexamples and failing-input evaluations -/

/-- A complete 48-byte inner `CAN_MESSAGE` object: `LOBJ` base header
(header size 32, header version 1, object size 48, object type 1), extended
header (`flags = 1`, i.e. ten-microsecond ticks, reserved, 64-bit raw
timestamp) and the 16-byte body (channel 1, flags 0, dlc 8, CAN id, 8 data
bytes). -/
def innerCanObj (tsRaw canId : Nat) (payload : List Nat) : List Nat :=
  lobjPat ++ leBytes 2 32 ++ leBytes 2 1 ++ leBytes 4 48 ++ leBytes 4 1 ++
    leBytes 4 1 ++ leBytes 4 0 ++ leBytes 8 tsRaw ++
    leBytes 2 1 ++ [0, 8] ++ leBytes 4 canId ++ payload

/-- First inner object of the carry-over scenario. -/
def obj1 : List Nat := innerCanObj 100 0x111 [1, 2, 3, 4, 5, 6, 7, 8]

/-- Second inner object of the carry-over scenario; it is the one split across
the container boundary. -/
def obj2 : List Nat := innerCanObj 200 0x222 [9, 10, 11, 12, 13, 14, 15, 16]

/-- First container payload: all of `obj1` plus the first byte of `obj2`
(split offset `k = 1`). -/
def splitPayloadA : List Nat := obj1 ++ obj2.take 1

/-- Second container payload: the remaining bytes of `obj2`. -/
def splitPayloadB : List Nat := obj2.drop 1

/-- A one-signal DBC message: plain unsigned 8-bit little-endian signal `S` at
bit 0 with factor 1 and offset 0, no multiplexor. -/
def sigS : DbcSignal := ⟨"S", 0, 8, false, false, false, 1, 0, .plain⟩

/-- Message carrying only `sigS`, with `message_multiplexor_switch`
returning `Ok(None)`. -/
def msgS : DbcMessage := ⟨[sigS], .ok none⟩

/-- Bus index mapping arbitration id `0x10` to `msgS`. -/
def busS : BusIndex := [(0x10, msgS)]

/-- Two frames carrying signal `S`, one on bus 0 and one on bus 1. -/
def framesTwoBuses : List CanFrame := [⟨0, 0x10, [5], 0⟩, ⟨1, 0x10, [7], 1⟩]

/-- A single frame on channel 1 when only one bus is configured. -/
def framesBadChannel : List CanFrame := [⟨0, 0x10, [5], 1⟩]

/-- Two frames on bus 0: the first has an arbitration id that is in no message
index (it is eliminated by the frame-level skip rules), the second is known. -/
def framesUnknownFirst : List CanFrame := [⟨10, 0x99, [5], 0⟩, ⟨12, 0x10, [5], 0⟩]

/-! ## Theorems -/

/-- C1.  Carry-over across container boundaries is broken in the source:
`self.pos` is saved at the top of each loop iteration (src/blf_reader.rs:195),
so after the last fully parsed object the saved position still points at that
object's start and the object is kept in the tail and parsed again.  Splitting
`obj2` at offset `k = 1` behind a complete `obj1` makes the reader emit
`obj1`'s frame twice: the split reading equals the merged reading with its
first frame duplicated in front, and differs from the merged reading. -/
theorem carry_over_duplicates_frame :
    (readContainers initialReader [splitPayloadA, splitPayloadB]).1 =
      (readContainers initialReader [obj1 ++ obj2]).1.take 1 ++
        (readContainers initialReader [obj1 ++ obj2]).1 ∧
    (readContainers initialReader [splitPayloadA, splitPayloadB]).1 ≠
      (readContainers initialReader [obj1 ++ obj2]).1 := by
  decide

/-- C2.  The bus-deduplication map `signal_bus_map` (src/main.rs:299) is
created empty and never inserted into, so the check at src/main.rs:375-379
never skips anything: with signal `S` defined on bus 0 and bus 1 and one frame
on each bus, the store receives a point from each bus, not only from the
first-claiming bus. -/
theorem bus_dedup_map_never_populated :
    processFrames [busS, busS] framesTwoBuses =
      .ok ⟨some 0, [⟨"S", 0, .uintVal 5⟩, ⟨"S", 1, .uintVal 7⟩]⟩ ∧
    [(⟨"S", 0, .uintVal 5⟩ : Push), ⟨"S", 1, .uintVal 7⟩] ≠
      [(⟨"S", 0, .uintVal 5⟩ : Push)] := by
  constructor
  · norm_num [processFrames, frameStep, processFrame, signalStep, signalBody, process_signal,
      List.foldl, List.lookup, msgS, sigS, busS, framesTwoBuses,
      show extract_signal_raw [5] 0 8 false = some 5 from by decide,
      show extract_signal_raw [7] 0 8 false = some 7 from by decide,
      show fractNonzero 1 = false from by decide,
      show fractNonzero 0 = false from by decide,
      show f64ToU64 1 = 1 from by decide,
      show f64ToU64 0 = 0 from by decide]
  · decide

/-- C3.  A frame whose channel is at or past the number of configured buses is
not skipped: `dbcs[bus_idx]` (src/main.rs:330) indexes without a bounds check
and panics, aborting the processing of the file.  With one configured bus, a
frame on channel 1 makes the frame loop abort. -/
theorem channel_out_of_range_panics :
    processFrames [busS] framesBadChannel = .error () := rfl

/-- Evaluation of the frame loop on `framesUnknownFirst` with the single bus
`busS`: the skipped first frame still sets the epoch to 10, and the point from
the second frame carries `12 - 10 = 2`. -/
theorem framesUnknownFirst_run :
    processFrames [busS] framesUnknownFirst =
      .ok ⟨some 10, [⟨"S", 2, .uintVal 5⟩]⟩ := by
  norm_num [processFrames, frameStep, processFrame, signalStep, signalBody, process_signal,
    List.foldl, List.lookup, msgS, sigS, busS, framesUnknownFirst,
    show ((153 : Nat) == 16) = false from rfl,
    show extract_signal_raw [5] 0 8 false = some 5 from by decide,
    show fractNonzero 1 = false from by decide,
    show fractNonzero 0 = false from by decide,
    show f64ToU64 1 = 1 from by decide,
    show f64ToU64 0 = 0 from by decide]

/-- C4 counterexample.  The epoch is not the timestamp of the first accepted
frame: `first_timestamp` is assigned (src/main.rs:333-338) before the
message-index lookup (src/main.rs:341-344), so a first frame that the skip
rules eliminate still defines the epoch.  Here the first frame (t = 10,
unknown arbitration id) is skipped and the first accepted frame has t = 12,
yet the point decoded from it carries `2 = 12 - 10`, not `12 - 12 = 0`. -/
theorem epoch_first_frame_counterexample :
    processFrames [busS] framesUnknownFirst =
      .ok ⟨some 10, [⟨"S", 2, .uintVal 5⟩]⟩ ∧
    (acceptedFrames [busS] framesUnknownFirst).head?.map CanFrame.timestamp =
      some 12 ∧
    (2 : ℚ) ≠ 12 - 12 := by
  refine ⟨framesUnknownFirst_run, ?_, by norm_num⟩
  norm_num [acceptedFrames, framesUnknownFirst, busS, msgS, List.lookup,
    show ((153 : Nat) == 16) = false from rfl]

/-- C5 counterexample.  For an unsigned non-float signal with integral factor 1
and offset −5 and raw value 10, the source computes
`(factor as u64) * raw + (offset as u64)`; the Rust `f64 as u64` cast
saturates, so `(-5.0) as u64 = 0` and the stored value is 10 — not the
claim's wrap-around value `(1 * 10 + (2^64 - 5)) mod 2^64 = 5`, which would
also be the physical value `raw * factor + offset = 5`. -/
theorem unsigned_scaling_counterexample :
    process_signal [10] 0 8 false false false 1 (-5) "S" 0 [] =
      [⟨"S", 0, .uintVal 10⟩] ∧
    (10 : Nat) ≠ (1 * 10 + (2 ^ 64 - 5)) % 2 ^ 64 := by
  constructor
  · norm_num [process_signal,
      show extract_signal_raw [10] 0 8 false = some 10 from by decide,
      show f64ToU64 1 = 1 from by decide,
      show f64ToU64 (-5) = 0 from by decide]
  · decide

/-- C5 (amended).  On the unsigned non-float path the stored `u64` is
`(factor as u64) * raw + (offset as u64)` reduced modulo `2 ^ 64`, where the
casts saturate; a negative offset casts to 0, so no wrap-around arises from a
negative offset; and for nonnegative integral factor and offset without
overflow the stored value is the physical value `factor * raw + offset`. -/
theorem unsigned_scaling_amended
    (msgData : List Nat) (startBit bitCount : Int) (isBigEndian : Bool)
    (factor offset : ℚ) (signalName : String) (msgTimestamp : ℚ)
    (dataStore : List Push) (raw : Nat)
    (hex : extract_signal_raw msgData startBit bitCount isBigEndian = some raw) :
    process_signal msgData startBit bitCount isBigEndian false false factor offset
        signalName msgTimestamp dataStore =
      dataStore ++ [⟨signalName, msgTimestamp,
        .uintVal ((f64ToU64 factor * raw + f64ToU64 offset) % 2 ^ 64)⟩] ∧
    (offset < 0 → f64ToU64 offset = 0) ∧
    (∀ f o : Nat, factor = f → offset = o → f < 2 ^ 64 → f * raw + o < 2 ^ 64 →
      (f64ToU64 factor * raw + f64ToU64 offset) % 2 ^ 64 = f * raw + o) := by
  refine ⟨by simp [process_signal, hex], fun h => by simp [f64ToU64, h], ?_⟩
  rintro f o rfl rfl hf hsum
  have hfloor : ∀ m : Nat, f64ToU64 (m : ℚ) = min m (2 ^ 64 - 1) := by
    intro m
    simp [f64ToU64, Int.floor_natCast]
  have ho : o < 2 ^ 64 := by omega
  rw [hfloor, hfloor, Nat.min_eq_left (by omega), Nat.min_eq_left (by omega),
    Nat.mod_eq_of_lt hsum]

/-- C5 amended witness: the amended statement applied at the counterexample
input (raw 10, factor 1, offset −5). -/
theorem unsigned_scaling_amended_witness :
    extract_signal_raw [10] 0 8 false = some 10 ∧
    (process_signal [10] 0 8 false false false 1 (-5) "S" 0 [] =
      [] ++ [⟨"S", 0, .uintVal ((f64ToU64 1 * 10 + f64ToU64 (-5)) % 2 ^ 64)⟩] ∧
    ((-5 : ℚ) < 0 → f64ToU64 (-5) = 0) ∧
    (∀ f o : Nat, (1 : ℚ) = f → (-5 : ℚ) = o → f < 2 ^ 64 → f * 10 + o < 2 ^ 64 →
      (f64ToU64 1 * 10 + f64ToU64 (-5)) % 2 ^ 64 = f * 10 + o)) :=
  ⟨by decide, unsigned_scaling_amended [10] 0 8 false 1 (-5) "S" 0 [] 10 (by decide)⟩

/-- Values fitting in `n` bits are closed under bitwise or. -/
theorem lor_lt_two_pow {a b n : Nat} (ha : a < 2 ^ n) (hb : b < 2 ^ n) :
    a ||| b < 2 ^ n := by
  have h : a ||| b = Nat.bitwise or a b := by rfl
  rw [h]
  exact Nat.bitwise_lt ha hb

/-- The little-endian loop only ever sets result bits at the pending indices. -/
theorem leLoop_lt {data : List Nat} {startBit : Int} {idxs : List Nat}
    {acc n : Nat} (hacc : acc < 2 ^ n) (hidx : ∀ i ∈ idxs, i < n) :
    leLoop data startBit acc idxs < 2 ^ n := by
  induction idxs generalizing acc with
  | nil => simpa [leLoop]
  | cons i rest ih =>
    simp only [leLoop]
    split
    · exact hacc
    · refine ih ?_ (fun k hk => hidx k (List.mem_cons_of_mem i hk))
      split
      · refine lor_lt_two_pow hacc ?_
        rw [Nat.one_shiftLeft]
        exact Nat.pow_lt_pow_right one_lt_two (hidx i (List.mem_cons_self i rest))
      · exact hacc

/-- The big-endian loop only ever sets result bits at the pending indices. -/
theorem beLoop_lt {data : List Nat} {startBit : Int} {idxs : List Nat}
    {acc n : Nat} (hacc : acc < 2 ^ n) (hidx : ∀ i ∈ idxs, i < n) :
    beLoop data startBit acc idxs < 2 ^ n := by
  induction idxs generalizing acc with
  | nil => simpa [beLoop]
  | cons i rest ih =>
    simp only [beLoop]
    split
    · exact ih hacc (fun k hk => hidx k (List.mem_cons_of_mem i hk))
    · refine ih ?_ (fun k hk => hidx k (List.mem_cons_of_mem i hk))
      split
      · refine lor_lt_two_pow hacc ?_
        rw [Nat.one_shiftLeft]
        exact Nat.pow_lt_pow_right one_lt_two (hidx i (List.mem_cons_self i rest))
      · exact hacc

/-- C10.  Whenever `extract_signal_raw` returns a raw value for a width
`1 ≤ bit_count < 64`, all bits of the result at positions at or above
`bit_count` are zero: the raw value is below `2 ^ bit_count`. -/
theorem extract_raw_lt_two_pow (data : List Nat) (startBit bitCount : Int)
    (isBigEndian : Bool) (raw : Nat) (h1 : 1 ≤ bitCount) (h2 : bitCount < 64)
    (hex : extract_signal_raw data startBit bitCount isBigEndian = some raw) :
    raw < 2 ^ bitCount.toNat := by
  unfold extract_signal_raw at hex
  rw [if_neg (by omega)] at hex
  by_cases hsb : startBit ≥ totalBits data
  · rw [if_pos hsb] at hex
    simp at hex
  · rw [if_neg hsb] at hex
    have hmem : ∀ i ∈ List.range bitCount.toNat, i < bitCount.toNat :=
      fun i hi => List.mem_range.mp hi
    have hpos : 0 < 2 ^ bitCount.toNat := Nat.pos_pow_of_pos _ (by omega)
    cases isBigEndian with
    | false =>
      simp only [Bool.false_eq_true, if_false, Option.some.injEq] at hex
      exact hex ▸ leLoop_lt hpos hmem
    | true =>
      simp only [if_true] at hex
      by_cases hbe : startBit < wrapI64 (bitCount - 1)
      · rw [if_pos hbe] at hex
        simp at hex
      · rw [if_neg hbe] at hex
        simp only [Option.some.injEq] at hex
        exact hex ▸ beLoop_lt hpos hmem

/-- C10 witness: the invariant applied to an 8-bit extraction from a one-byte
buffer. -/
theorem extract_raw_lt_two_pow_witness :
    extract_signal_raw [255] 0 8 false = some 255 ∧
    (1 : Int) ≤ 8 ∧ (8 : Int) < 64 ∧ (255 : Nat) < 2 ^ (8 : Int).toNat :=
  ⟨by decide, by decide, by decide,
    extract_raw_lt_two_pow [255] 0 8 false 255 (by decide) (by decide) (by decide)⟩

/-- Adding a value below `2 ^ n` to a multiple of `2 ^ n` sets exactly the
union of their bits. -/
theorem testBit_mul_pow_two_add (k m n j : Nat) (hm : m < 2 ^ n) :
    (2 ^ n * k + m).testBit j = ((2 ^ n * k).testBit j || m.testBit j) := by
  by_cases hj : j < n
  · rw [Nat.testBit_mul_pow_two, decide_eq_false (by omega : ¬ j ≥ n), Bool.false_and,
      Bool.false_or, Nat.testBit_to_div_mod, Nat.testBit_to_div_mod]
    have e : 2 ^ n * k = 2 ^ j * (2 ^ (n - j) * k) := by
      rw [← mul_assoc, ← pow_add]
      congr 2
      omega
    rw [e, Nat.mul_add_div (Nat.pos_pow_of_pos _ (by norm_num))]
    have e2 : 2 ^ (n - j) * k = 2 * (2 ^ (n - j - 1) * k) := by
      rw [← mul_assoc, ← pow_succ']
      congr 2
      omega
    rw [e2]
    simp only [decide_eq_decide]
    omega
  · have hle : n ≤ j := by omega
    have hmj : m.testBit j = false :=
      Nat.testBit_lt_two_pow (lt_of_lt_of_le hm (Nat.pow_le_pow_right (by norm_num) hle))
    rw [Nat.testBit_mul_pow_two, decide_eq_true (by omega : j ≥ n), Bool.true_and, hmj,
      Bool.or_false, Nat.testBit_to_div_mod, Nat.testBit_to_div_mod]
    have e : 2 ^ j = 2 ^ n * 2 ^ (j - n) := by
      rw [← pow_add]
      congr 1
      omega
    rw [e, ← Nat.div_div_eq_div_mul, Nat.mul_add_div (Nat.pos_pow_of_pos _ (by norm_num)),
      Nat.div_eq_of_lt hm, Nat.add_zero]

/-- Bitwise or of a multiple of `2 ^ n` with a value below `2 ^ n` is their
sum (the operands have disjoint bits). -/
theorem lor_mul_pow_two_add (k m n : Nat) (hm : m < 2 ^ n) :
    (2 ^ n * k) ||| m = 2 ^ n * k + m := by
  refine Nat.eq_of_testBit_eq fun j => ?_
  rw [Nat.testBit_lor, testBit_mul_pow_two_add k m n j hm]

/-- Sign extension agrees with two's complement, stated for a natural-number
width. -/
theorem toSigned_eq_twosComplement_ofNat (raw n : Nat)
    (h1 : 1 ≤ n) (h2 : n < 64) :
    toSigned raw (n : Int) = twosComplement raw n := by
  simp only [toSigned, twosComplement, if_pos (by exact_mod_cast h2 : (n : Int) < 64)]
  rw [Int.emod_eq_of_lt (by omega) (by exact_mod_cast h2),
    Int.emod_eq_of_lt (by omega) (by omega)]
  have htn : ((n : Int)).toNat = n := Int.toNat_natCast n
  have htn1 : ((n : Int) - 1).toNat = n - 1 := by omega
  rw [htn, htn1, Nat.one_shiftLeft, Nat.one_shiftLeft, Nat.and_pow_two_sub_one_eq_mod,
    Nat.and_two_pow]
  have hmlt : raw % 2 ^ n < 2 ^ n := Nat.mod_lt _ (Nat.pos_pow_of_pos _ (by norm_num))
  have hsplitpow : 2 ^ n = 2 * 2 ^ (n - 1) := by
    rw [← pow_succ']
    congr 1
    omega
  by_cases hlt : raw % 2 ^ n < 2 ^ (n - 1)
  · have htb : (raw % 2 ^ n).testBit (n - 1) = false := Nat.testBit_lt_two_pow hlt
    simp [htb, hlt]
  · have hdiv : raw % 2 ^ n / 2 ^ (n - 1) = 1 :=
      Nat.div_eq_of_lt_le (by omega) (by omega)
    have htb : (raw % 2 ^ n).testBit (n - 1) = true := by
      rw [Nat.testBit_to_div_mod, hdiv]
      decide
    simp only [htb, Bool.toNat_true, one_mul, if_neg hlt]
    rw [if_pos (by positivity : (2:ℕ) ^ (n - 1) ≠ 0)]
    have hp : 2 ^ n * 2 ^ (64 - n) = 2 ^ 64 := by
      rw [← pow_add]
      congr 1
      omega
    have h2n : 2 ^ n ≤ 2 ^ 64 := Nat.pow_le_pow_right (by norm_num) (by omega)
    have hpos2n : 0 < 2 ^ n := Nat.pos_pow_of_pos _ (by norm_num)
    have heq : 2 ^ n * (2 ^ (64 - n) - 1) = 2 ^ 64 - 2 ^ n := by
      rw [Nat.mul_sub_one, hp]
    have hc : 2 ^ 64 - 1 - (2 ^ n - 1) = 2 ^ n * (2 ^ (64 - n) - 1) := by
      rw [heq]
      omega
    rw [hc, Nat.lor_comm, lor_mul_pow_two_add _ _ _ hmlt, heq]
    have h2n63 : 2 ^ n ≤ 2 ^ 63 := Nat.pow_le_pow_right (by norm_num) (by omega)
    unfold u64AsI64
    rw [if_neg (by omega)]
    have hcast : ((2 ^ 64 - 2 ^ n + raw % 2 ^ n : Nat) : Int) =
        2 ^ 64 - 2 ^ n + (raw % 2 ^ n : Nat) := by
      rw [Nat.cast_add, Nat.cast_sub h2n]
      push_cast
      ring
    rw [hcast]
    push_cast
    ring

/-- C7.  For a signed signal of width `1 ≤ w < 64` and any `u64` raw value, the
decoded `i64` of `process_signal` (src/main.rs:235-254) is the two's-complement
interpretation of the low `w` bits of the raw value. -/
theorem sign_extension_twos_complement (raw : Nat) (w : Int)
    (h1 : 1 ≤ w) (h2 : w < 64) (_hraw : raw < 2 ^ 64) :
    toSigned raw w = twosComplement raw w.toNat := by
  obtain ⟨n, rfl⟩ := Int.eq_ofNat_of_zero_le (by omega : 0 ≤ w)
  rw [Int.toNat_natCast]
  exact toSigned_eq_twosComplement_ofNat raw n (by omega) (by exact_mod_cast h2)

/-- C7 witness: the spec's scenario S3 — the 10-bit raw value `0x3FF` decodes
to `-1`. -/
theorem sign_extension_twos_complement_witness :
    (1 : Int) ≤ 10 ∧ (10 : Int) < 64 ∧ (1023 : Nat) < 2 ^ 64 ∧
    toSigned 1023 10 = twosComplement 1023 (10 : Int).toNat ∧
    toSigned 1023 10 = -1 :=
  ⟨by decide, by decide, by decide,
    sign_extension_twos_complement 1023 10 (by decide) (by decide) (by decide),
    by decide⟩

/-- Wrap-around of `i64` arithmetic is the identity on representable values. -/
theorem wrapI64_eq_self {z : Int} (hlo : -(2 ^ 63) ≤ z) (hhi : z < 2 ^ 63) :
    wrapI64 z = z := by
  unfold wrapI64
  omega

/-- A probe of the packed buffer at an in-range absolute bit position reads the
corresponding bit of `value * 2 ^ startBit`. -/
theorem bitValue_packLE (v sb bc a : Nat) (ha : a < 8 * ((sb + bc + 7) / 8))
    (hL : (sb + bc + 7) / 8 < 2 ^ 63) :
    bitValue (packLE v sb bc) (a : Int) =
      if (v * 2 ^ sb).testBit a then 1 else 0 := by
  have hq : ((a : Int).tdiv 8 % 2 ^ 64).toNat = a / 8 := by
    rw [Int.tdiv_eq_ediv (by positivity) (by norm_num)]
    omega
  have hr : (((a : Int).tmod 8) % 8).toNat = a % 8 := by
    rw [Int.tmod_eq_emod (by positivity) (by norm_num)]
    omega
  have hlen : (packLE v sb bc).length = (sb + bc + 7) / 8 := by simp [packLE]
  have hidx : a / 8 < (sb + bc + 7) / 8 := by omega
  unfold bitValue
  rw [hq, hr, if_pos (by rw [hlen]; exact hidx)]
  have hget : (packLE v sb bc).getD (a / 8) 0 = v * 2 ^ sb / 2 ^ (8 * (a / 8)) % 2 ^ 8 := by
    rw [List.getD_eq_getElem _ _ (by rw [hlen]; exact hidx)]
    simp [packLE]
  rw [hget, Nat.and_one_is_mod, Nat.shiftRight_eq_div_pow]
  have step1 : v * 2 ^ sb / 2 ^ (8 * (a / 8)) % 2 ^ 8 / 2 ^ (a % 8) % 2 =
      ((v * 2 ^ sb / 2 ^ (8 * (a / 8)) % 2 ^ 8).testBit (a % 8)).toNat :=
    (Nat.toNat_testBit _ _).symm
  rw [step1, Nat.testBit_mod_two_pow, decide_eq_true (Nat.mod_lt a (by norm_num) : a % 8 < 8)]
  rw [Bool.true_and]
  rw [← Nat.shiftRight_eq_div_pow, Nat.testBit_shiftRight, Nat.div_add_mod]
  cases h : (v * 2 ^ sb).testBit a <;> simp [h]

/-- Bit `j` of the little-endian loop's result: the accumulator's bit, or the
probed data bit when `j` is among the pending indices (all in range, so the
break never fires). -/
theorem leLoop_testBit (data : List Nat) (sb : Int) (idxs : List Nat) (acc j : Nat)
    (hin : ∀ i ∈ idxs, wrapI64 (sb + i) < totalBits data) :
    (leLoop data sb acc idxs).testBit j =
      (acc.testBit j ||
        (decide (j ∈ idxs) && decide (bitValue data (wrapI64 (sb + j)) ≠ 0))) := by
  induction idxs generalizing acc with
  | nil => simp [leLoop]
  | cons i rest ih =>
    simp only [leLoop]
    rw [if_neg (not_le.mpr (hin i (List.mem_cons_self i rest)))]
    rw [ih _ (fun k hk => hin k (List.mem_cons_of_mem i hk))]
    by_cases hij : i = j
    · subst hij
      by_cases hbv : bitValue data (wrapI64 (sb + i)) ≠ 0
      · rw [if_pos hbv]
        simp [Nat.testBit_lor, Nat.one_shiftLeft, Nat.testBit_two_pow, hbv]
      · rw [if_neg hbv]
        simp only [decide_eq_false hbv, Bool.and_false, Bool.or_false]
    · have hdec : decide (j ∈ i :: rest) = decide (j ∈ rest) := by
        refine decide_eq_decide.mpr ?_
        constructor
        · intro h
          rcases List.mem_cons.mp h with h1 | h2
          · exact absurd h1.symm hij
          · exact h2
        · exact List.mem_cons_of_mem i
      by_cases hbv : bitValue data (wrapI64 (sb + i)) ≠ 0
      · rw [if_pos hbv, hdec]
        simp only [Nat.testBit_lor, Nat.one_shiftLeft, Nat.testBit_two_pow,
          decide_eq_false hij, Bool.or_false]
      · rw [if_neg hbv, hdec]

/-- C6.  Little-endian round trip: packing `value < 2 ^ bit_count` LSB-first at
`(start_bit, bit_count, LittleEndian)` into a zeroed buffer of
`⌈(start_bit + bit_count) / 8⌉` bytes and extracting with `extract_signal_raw`
at the same parameters yields `Some value`.  The bound
`start_bit + bit_count ≤ 2 ^ 63 - 8` keeps the buffer addressable without
`i64`/`usize` overflow, as any real `i64` start bit and allocatable buffer
are. -/
theorem le_pack_extract_roundtrip (value startBit bitCount : Nat)
    (h1 : 1 ≤ bitCount) (h2 : bitCount ≤ 64) (hv : value < 2 ^ bitCount)
    (hrange : startBit + bitCount ≤ 2 ^ 63 - 8) :
    extract_signal_raw (packLE value startBit bitCount) startBit bitCount false =
      some value := by
  have hL8 : 8 * ((startBit + bitCount + 7) / 8) ≤ startBit + bitCount + 7 := by omega
  have hLge : startBit + bitCount ≤ 8 * ((startBit + bitCount + 7) / 8) := by omega
  have hL63 : (startBit + bitCount + 7) / 8 < 2 ^ 63 := by omega
  have hlen : (packLE value startBit bitCount).length = (startBit + bitCount + 7) / 8 := by
    simp [packLE]
  have htb : totalBits (packLE value startBit bitCount) =
      ((8 * ((startBit + bitCount + 7) / 8) : Nat) : Int) := by
    unfold totalBits
    rw [hlen, wrapI64_eq_self (by push_cast; omega) (by push_cast; omega)]
    push_cast
    omega
  unfold extract_signal_raw
  rw [if_neg (by omega)]
  rw [if_neg (by rw [htb]; push_cast; omega)]
  rw [if_neg (by simp)]
  refine congrArg some ?_
  have htn : ((bitCount : Int)).toNat = bitCount := Int.toNat_natCast bitCount
  rw [htn]
  refine Nat.eq_of_testBit_eq fun j => ?_
  have hin : ∀ i ∈ List.range bitCount,
      wrapI64 ((startBit : Int) + i) < totalBits (packLE value startBit bitCount) := by
    intro i hi
    have hib : i < bitCount := List.mem_range.mp hi
    rw [wrapI64_eq_self (by push_cast; omega) (by push_cast; omega), htb]
    push_cast
    omega
  rw [leLoop_testBit _ _ _ _ _ hin, Nat.zero_testBit, Bool.false_or]
  by_cases hj : j < bitCount
  · rw [decide_eq_true (List.mem_range.mpr hj)]
    have hwj : wrapI64 ((startBit : Int) + j) = ((startBit + j : Nat) : Int) := by
      rw [wrapI64_eq_self (by push_cast; omega) (by push_cast; omega)]
      push_cast
      ring
    rw [hwj, bitValue_packLE value startBit bitCount (startBit + j) (by omega) hL63]
    rw [mul_comm value (2 ^ startBit), Nat.testBit_mul_pow_two,
      decide_eq_true (by omega : startBit + j ≥ startBit),
      (by omega : startBit + j - startBit = j), Bool.true_and]
    cases h : value.testBit j <;> simp [h]
  · rw [decide_eq_false (fun hmem => hj (List.mem_range.mp hmem)), Bool.false_and]
    exact (Nat.testBit_lt_two_pow
      (lt_of_lt_of_le hv (Nat.pow_le_pow_right (by norm_num) (by omega)))).symm

/-- C6 witness: the spec's scenario S1 layout — 16-bit value `0x1234` packed at
bit 0 and re-extracted. -/
theorem le_pack_extract_roundtrip_witness :
    1 ≤ 16 ∧ 16 ≤ 64 ∧ (4660 : Nat) < 2 ^ 16 ∧ 0 + 16 ≤ 2 ^ 63 - 8 ∧
    extract_signal_raw (packLE 4660 0 16) 0 16 false = some 4660 :=
  ⟨by decide, by decide, by decide, by decide,
    le_pack_extract_roundtrip 4660 0 16 (by decide) (by decide) (by decide) (by decide)⟩

/-- `process_signal` only appends pushes, all carrying the frame's rebased
timestamp. -/
theorem process_signal_appends (msgData : List Nat) (startBit bitCount : Int)
    (isBigEndian isSigned storeAsFloat : Bool) (factor offset : ℚ)
    (signalName : String) (msgTimestamp : ℚ) (dataStore : List Push) :
    ∃ suf, process_signal msgData startBit bitCount isBigEndian isSigned
        storeAsFloat factor offset signalName msgTimestamp dataStore =
      dataStore ++ suf ∧ ∀ p ∈ suf, p.timestamp = msgTimestamp := by
  unfold process_signal
  cases extract_signal_raw msgData startBit bitCount isBigEndian with
  | none => exact ⟨[], by simp, by simp⟩
  | some raw =>
    cases isSigned <;> cases storeAsFloat <;>
      exact ⟨_, rfl, by intro p hp; simp at hp; simp [hp]⟩

/-- The signal-loop body only appends pushes carrying the rebased timestamp. -/
theorem signalBody_appends (msgData : List Nat) (currentMuxValue : Nat)
    (msgTimestamp : ℚ) (pushes : List Push) (signal : DbcSignal) :
    ∃ suf, signalBody msgData currentMuxValue msgTimestamp pushes signal =
      pushes ++ suf ∧ ∀ p ∈ suf, p.timestamp = msgTimestamp := by
  unfold signalBody
  by_cases hf : signal.isFloat
  · exact ⟨[], by simp [hf], by simp⟩
  · rw [if_neg hf]
    cases signal.mux with
    | plain => exact process_signal_appends _ _ _ _ _ _ _ _ _ _ _
    | multiplexor => exact process_signal_appends _ _ _ _ _ _ _ _ _ _ _
    | multiplexedSignal k =>
      dsimp only
      by_cases hk : k = currentMuxValue
      · rw [if_pos hk]
        exact process_signal_appends _ _ _ _ _ _ _ _ _ _ _
      · rw [if_neg hk]
        exact ⟨[], by simp, by simp⟩
    | other => exact ⟨[], by simp, by simp⟩

/-- One signal-loop iteration only appends pushes carrying the rebased
timestamp. -/
theorem signalStep_appends (signalBusMap : List (String × Nat)) (busIdx : Nat)
    (msgData : List Nat) (currentMuxValue : Nat) (msgTimestamp : ℚ)
    (pushes : List Push) (signal : DbcSignal) :
    ∃ suf, signalStep signalBusMap busIdx msgData currentMuxValue msgTimestamp
        pushes signal = pushes ++ suf ∧ ∀ p ∈ suf, p.timestamp = msgTimestamp := by
  unfold signalStep
  cases signalBusMap.lookup signal.name with
  | none => exact signalBody_appends _ _ _ _ _
  | some claimedBus =>
    dsimp only
    by_cases hb : busIdx ≠ claimedBus
    · rw [if_pos hb]
      exact ⟨[], by simp, by simp⟩
    · rw [if_neg hb]
      exact signalBody_appends _ _ _ _ _

/-- The whole signal loop only appends pushes carrying the rebased
timestamp. -/
theorem foldl_signalStep_appends (signalBusMap : List (String × Nat)) (busIdx : Nat)
    (msgData : List Nat) (currentMuxValue : Nat) (msgTimestamp : ℚ)
    (sigs : List DbcSignal) :
    ∀ pushes, ∃ suf,
      sigs.foldl (signalStep signalBusMap busIdx msgData currentMuxValue msgTimestamp)
        pushes = pushes ++ suf ∧ ∀ p ∈ suf, p.timestamp = msgTimestamp := by
  induction sigs with
  | nil => exact fun pushes => ⟨[], by simp, by simp⟩
  | cons s rest ih =>
    intro pushes
    obtain ⟨suf1, h1, hts1⟩ :=
      signalStep_appends signalBusMap busIdx msgData currentMuxValue msgTimestamp pushes s
    obtain ⟨suf2, h2, hts2⟩ := ih (pushes ++ suf1)
    refine ⟨suf1 ++ suf2, ?_, ?_⟩
    · rw [List.foldl_cons, h1, h2, List.append_assoc]
    · intro p hp
      rcases List.mem_append.mp hp with h | h
      · exact hts1 p h
      · exact hts2 p h

/-- A non-panicking frame iteration fixes `first_timestamp` to its previous
value (or this frame's timestamp when unset) and appends only pushes carrying
`timestamp - epoch`. -/
theorem processFrame_ok (buses : List BusIndex) (signalBusMap : List (String × Nat))
    (st : ProcessState) (msg : CanFrame) (st' : ProcessState)
    (h : processFrame buses signalBusMap st msg = .ok st') :
    st'.firstTimestamp = some (st.firstTimestamp.getD msg.timestamp) ∧
    ∃ suf, st'.pushes = st.pushes ++ suf ∧
      ∀ p ∈ suf, p.timestamp = msg.timestamp - st.firstTimestamp.getD msg.timestamp := by
  unfold processFrame at h
  dsimp only at h
  split at h
  · split at h
    · simp only [Except.ok.injEq] at h
      subst h
      exact ⟨rfl, [], by simp, by simp⟩
    · split at h
      · simp only [Except.ok.injEq] at h
        subst h
        exact ⟨rfl, [], by simp, by simp⟩
      · split at h
        · simp only [Except.ok.injEq] at h
          subst h
          exact ⟨rfl, [], by simp, by simp⟩
        · simp only [Except.ok.injEq] at h
          subst h
          refine ⟨rfl, ?_⟩
          exact foldl_signalStep_appends _ _ _ _ _ _ _
  · exact absurd h (by simp)



/-- A panic aborts the rest of the frame loop. -/
theorem foldl_frameStep_error (buses : List BusIndex) (l : List CanFrame) :
    l.foldl (frameStep buses) (.error ()) = .error () := by
  induction l with
  | nil => rfl
  | cons m rest ih => simpa [frameStep] using ih

/-- Once the epoch is set it never changes, and every later push carries some
frame's timestamp minus the epoch. -/
theorem runFrames_ok (buses : List BusIndex) (frames : List CanFrame) (e : ℚ) :
    ∀ st0 st : ProcessState, st0.firstTimestamp = some e →
      frames.foldl (frameStep buses) (.ok st0) = .ok st →
      st.firstTimestamp = some e ∧
      ∃ suf, st.pushes = st0.pushes ++ suf ∧
        ∀ p ∈ suf, ∃ m ∈ frames, p.timestamp = m.timestamp - e := by
  induction frames with
  | nil =>
    intro st0 st h0 hr
    simp only [List.foldl_nil, Except.ok.injEq] at hr
    subst hr
    exact ⟨h0, [], by simp, by simp⟩
  | cons m rest ih =>
    intro st0 st h0 hr
    rw [List.foldl_cons] at hr
    cases hpf : processFrame buses [] st0 m with
    | error err =>
      rw [show frameStep buses (.ok st0) m = .error () from by
        simp [frameStep, hpf]] at hr
      rw [foldl_frameStep_error] at hr
      exact absurd hr (by simp)
    | ok st1 =>
      rw [show frameStep buses (.ok st0) m = .ok st1 from by
        simp [frameStep, hpf]] at hr
      obtain ⟨hft, suf1, hp1, hts1⟩ := processFrame_ok _ _ _ _ _ hpf
      rw [h0] at hft hts1
      simp only [Option.getD_some] at hft hts1
      obtain ⟨hft2, suf2, hp2, hts2⟩ := ih st1 st hft hr
      refine ⟨hft2, suf1 ++ suf2, by rw [hp2, hp1, List.append_assoc], ?_⟩
      intro p hp
      rcases List.mem_append.mp hp with hx | hx
      · exact ⟨m, List.mem_cons_self m rest, hts1 p hx⟩
      · obtain ⟨m', hm', hts'⟩ := hts2 p hx
        exact ⟨m', List.mem_cons_of_mem m hm', hts'⟩

/-- C4 (amended).  When the frame loop finishes without a panic, the epoch is
the timestamp of the first frame yielded by the reader — even if that frame is
then eliminated by the message-index lookup or later checks — and every push
in the store carries `timestamp - epoch` for the frame it was decoded from. -/
theorem epoch_rebasing_amended (buses : List BusIndex) (frames : List CanFrame)
    (st : ProcessState) (m0 : CanFrame) (h0 : frames.head? = some m0)
    (hrun : processFrames buses frames = .ok st) :
    st.firstTimestamp = some m0.timestamp ∧
    ∀ p ∈ st.pushes, ∃ m ∈ frames, p.timestamp = m.timestamp - m0.timestamp := by
  cases frames with
  | nil => simp at h0
  | cons mh rest =>
    simp only [List.head?_cons, Option.some.injEq] at h0
    subst h0
    unfold processFrames at hrun
    rw [List.foldl_cons] at hrun
    cases hpf : processFrame buses [] ⟨none, []⟩ mh with
    | error err =>
      rw [show frameStep buses (.ok ⟨none, []⟩) mh = .error () from by
        simp [frameStep, hpf]] at hrun
      rw [foldl_frameStep_error] at hrun
      exact absurd hrun (by simp)
    | ok st1 =>
      rw [show frameStep buses (.ok ⟨none, []⟩) mh = .ok st1 from by
        simp [frameStep, hpf]] at hrun
      obtain ⟨hft, suf1, hp1, hts1⟩ := processFrame_ok _ _ _ _ _ hpf
      simp only [Option.getD_none] at hft hts1
      obtain ⟨hft2, suf2, hp2, hts2⟩ := runFrames_ok buses rest mh.timestamp st1 st hft hrun
      refine ⟨hft2, ?_⟩
      intro p hp
      rw [hp2, hp1] at hp
      simp only [List.nil_append] at hp
      rcases List.mem_append.mp hp with hx | hx
      · exact ⟨mh, List.mem_cons_self mh rest, hts1 p hx⟩
      · obtain ⟨m', hm', hts'⟩ := hts2 p hx
        exact ⟨m', List.mem_cons_of_mem mh hm', hts'⟩

/-- C4 amended witness: the amended statement applied to the concrete run in
which the first frame is skipped by the message-index lookup. -/
theorem epoch_rebasing_amended_witness :
    framesUnknownFirst.head? = some ⟨10, 153, [5], 0⟩ ∧
    processFrames [busS] framesUnknownFirst =
      .ok ⟨some 10, [⟨"S", 2, .uintVal 5⟩]⟩ ∧
    ((⟨some 10, [⟨"S", 2, .uintVal 5⟩]⟩ : ProcessState).firstTimestamp =
        some (⟨10, 153, [5], 0⟩ : CanFrame).timestamp ∧
      ∀ p ∈ (⟨some 10, [⟨"S", 2, .uintVal 5⟩]⟩ : ProcessState).pushes,
        ∃ m ∈ framesUnknownFirst,
          p.timestamp = m.timestamp - (⟨10, 153, [5], 0⟩ : CanFrame).timestamp) :=
  ⟨rfl, framesUnknownFirst_run,
    epoch_rebasing_amended [busS] framesUnknownFirst ⟨some 10, [⟨"S", 2, .uintVal 5⟩]⟩
      ⟨10, 153, [5], 0⟩ rfl framesUnknownFirst_run⟩

/-- On non-NaN patterns the sort comparator not answering `Greater` is the
key order. -/
theorem pointLe_iff_key {x y : Nat} (hx : f64IsNan x = false) (hy : f64IsNan y = false) :
    (f64CmpEq x y ≠ Ordering.gt) ↔ f64Key x ≤ f64Key y := by
  unfold f64CmpEq
  rw [hx, hy]
  simp only [Bool.or_self, Bool.false_eq_true, if_false]
  constructor
  · intro h
    by_contra hlt
    exact h (compare_gt_iff_gt.mpr (not_le.mp hlt))
  · intro h hgt
    exact absurd (compare_gt_iff_gt.mp hgt) (not_lt.mpr h)

/-- On non-NaN patterns IEEE `<=` is the key order. -/
theorem f64Le_eq_key {x y : Nat} (hx : f64IsNan x = false) (hy : f64IsNan y = false) :
    f64Le x y = decide (f64Key x ≤ f64Key y) := by
  unfold f64Le
  rw [hx, hy]
  simp

/-- The point sort viewed through `attach`, so the comparator can be reasoned
about on the subtype of list members. -/
theorem sortPoints_eq_attach {α : Type} (l : List (Nat × α)) :
    sortPoints l =
      (l.attach.mergeSort (fun a b => pointLe a.val b.val)).map Subtype.val := by
  unfold sortPoints
  have h := @List.map_mergeSort _ _ (fun a b : {x // x ∈ l} => pointLe a.val b.val)
    pointLe Subtype.val l.attach (fun a _ b _ => rfl)
  rw [List.attach_map_subtype_val] at h
  exact h.symm

/-- With no NaN among the members the comparator is transitive. -/
theorem attachLe_trans {α : Type} (l : List (Nat × α))
    (h : ∀ p ∈ l, f64IsNan p.1 = false) :
    ∀ a b c : {x // x ∈ l}, pointLe a.val b.val = true → pointLe b.val c.val = true →
      pointLe a.val c.val = true := by
  intro a b c hab hbc
  rw [pointLe, decide_eq_true_eq] at hab hbc ⊢
  exact (pointLe_iff_key (h a.val a.property) (h c.val c.property)).mpr
    (le_trans ((pointLe_iff_key (h a.val a.property) (h b.val b.property)).mp hab)
      ((pointLe_iff_key (h b.val b.property) (h c.val c.property)).mp hbc))

/-- With no NaN among the members the comparator is total. -/
theorem attachLe_total {α : Type} (l : List (Nat × α))
    (h : ∀ p ∈ l, f64IsNan p.1 = false) :
    ∀ a b : {x // x ∈ l}, (pointLe a.val b.val || pointLe b.val a.val) = true := by
  intro a b
  rcases le_total (f64Key a.val.1) (f64Key b.val.1) with hab | hba
  · have hx : pointLe a.val b.val = true := by
      rw [pointLe, decide_eq_true_eq]
      exact (pointLe_iff_key (h a.val a.property) (h b.val b.property)).mpr hab
    simp [hx]
  · have hx : pointLe b.val a.val = true := by
      rw [pointLe, decide_eq_true_eq]
      exact (pointLe_iff_key (h b.val b.property) (h a.val a.property)).mpr hba
    simp [hx]

/-- Sorted output: timestamps are pairwise ordered after the sort. -/
theorem sortPoints_pairwise {α : Type} (l : List (Nat × α))
    (h : ∀ p ∈ l, f64IsNan p.1 = false) :
    ((sortPoints l).map Prod.fst).Pairwise (fun a b => f64Le a b = true) := by
  rw [sortPoints_eq_attach, List.pairwise_map, List.pairwise_map]
  have hsorted := List.sorted_mergeSort (attachLe_trans l h) (attachLe_total l h) l.attach
  refine hsorted.imp ?_
  intro a b hab
  rw [pointLe, decide_eq_true_eq] at hab
  rw [f64Le_eq_key (h a.val a.property) (h b.val b.property), decide_eq_true_eq]
  exact (pointLe_iff_key (h a.val a.property) (h b.val b.property)).mp hab

/-- Stability: the subsequence of points with any fixed timestamp key is
unchanged by the sort. -/
theorem sortPoints_filter_key {α : Type} (l : List (Nat × α))
    (h : ∀ p ∈ l, f64IsNan p.1 = false) (k : Int) :
    (sortPoints l).filter (fun p => f64Key p.1 = k) =
      l.filter (fun p => f64Key p.1 = k) := by
  have hcpair : (l.attach.filter (fun a => decide (f64Key a.val.1 = k))).Pairwise
      (fun a b => pointLe a.val b.val = true) := by
    refine List.pairwise_of_forall_mem_list ?_
    intro a ha b hb
    have hpa := (List.mem_filter.mp ha).2
    have hpb := (List.mem_filter.mp hb).2
    rw [decide_eq_true_eq] at hpa hpb
    rw [pointLe, decide_eq_true_eq]
    refine (pointLe_iff_key (h a.val a.property) (h b.val b.property)).mpr ?_
    rw [hpa, hpb]
  have hsub : (l.attach.filter (fun a => decide (f64Key a.val.1 = k))).Sublist
      (l.attach.mergeSort (fun a b => pointLe a.val b.val)) :=
    List.sublist_mergeSort (attachLe_trans l h) (attachLe_total l h) hcpair
      (List.filter_sublist l.attach)
  have hall : ∀ x ∈ l.attach.filter (fun a => decide (f64Key a.val.1 = k)),
      (fun a => decide (f64Key a.val.1 = k)) x = true :=
    fun x hx => (List.mem_filter.mp hx).2
  have hsub2 : (l.attach.filter (fun a => decide (f64Key a.val.1 = k))).Sublist
      ((l.attach.mergeSort (fun a b => pointLe a.val b.val)).filter
        (fun a => decide (f64Key a.val.1 = k))) := by
    have hfx := List.Sublist.filter (fun a => decide (f64Key a.val.1 = k)) hsub
    rwa [(List.filter_eq_self.mpr hall)] at hfx
  have hperm : ((l.attach.mergeSort (fun a b => pointLe a.val b.val)).filter
      (fun a => decide (f64Key a.val.1 = k))).Perm
        (l.attach.filter (fun a => decide (f64Key a.val.1 = k))) :=
    List.Perm.filter _ (List.mergeSort_perm l.attach _)
  have heq := List.Sublist.eq_of_length hsub2 hperm.length_eq.symm
  rw [sortPoints_eq_attach, List.filter_map]
  conv_rhs => rw [← List.attach_map_subtype_val l, List.filter_map]
  refine congrArg (List.map Subtype.val) ?_
  have hcomp : ((fun p : Nat × α => decide (f64Key p.1 = k)) ∘ Subtype.val) =
      (fun a : {x // x ∈ l} => decide (f64Key a.val.1 = k)) := rfl
  rw [hcomp]
  exact heq.symm

/-- C8.  After `write_to_stream` has sorted the store (`sort_by_timestamp`,
the in-place sort it performs first), every series' timestamps are pairwise
`ts[i] <= ts[j]` for `i < j`, and the sort is stable: for each original series
and each timestamp key, the subsequence of points with that key is exactly as
inserted.  The no-NaN hypothesis matches every store this pipeline builds —
its timestamps are finite differences of finite reals. -/
theorem sorted_emission_stable (store : DataStore)
    (hnan : ∀ e ∈ store, ∀ t ∈ seriesTimestamps e.2, f64IsNan t = false) :
    ∀ e ∈ sort_by_timestamp store,
      (seriesTimestamps e.2).Pairwise (fun a b => f64Le a b = true) ∧
      ∃ e' ∈ store, e.1 = e'.1 ∧ e.2 = sortSeries e'.2 ∧
        ∀ k : Int, filterKey k e.2 = filterKey k e'.2 := by
  intro e he
  unfold sort_by_timestamp at he
  obtain ⟨⟨name, sd⟩, he', heq⟩ := List.mem_map.mp he
  subst heq
  have hn : ∀ t ∈ seriesTimestamps sd, f64IsNan t = false := hnan (name, sd) he'
  refine ⟨?_, (name, sd), he', rfl, rfl, ?_⟩
  · cases sd with
    | i64Series pts =>
      have hpts : ∀ p ∈ pts, f64IsNan p.1 = false := fun p hp =>
        hn p.1 (by simpa [seriesTimestamps] using List.mem_map_of_mem Prod.fst hp)
      simpa [sortSeries, seriesTimestamps] using sortPoints_pairwise pts hpts
    | u64Series pts =>
      have hpts : ∀ p ∈ pts, f64IsNan p.1 = false := fun p hp =>
        hn p.1 (by simpa [seriesTimestamps] using List.mem_map_of_mem Prod.fst hp)
      simpa [sortSeries, seriesTimestamps] using sortPoints_pairwise pts hpts
    | f64Series pts =>
      have hpts : ∀ p ∈ pts, f64IsNan p.1 = false := fun p hp =>
        hn p.1 (by simpa [seriesTimestamps] using List.mem_map_of_mem Prod.fst hp)
      simpa [sortSeries, seriesTimestamps] using sortPoints_pairwise pts hpts
    | stringSeries pts =>
      have hpts : ∀ p ∈ pts, f64IsNan p.1 = false := fun p hp =>
        hn p.1 (by simpa [seriesTimestamps] using List.mem_map_of_mem Prod.fst hp)
      simpa [sortSeries, seriesTimestamps] using sortPoints_pairwise pts hpts
  · intro k
    cases sd with
    | i64Series pts =>
      have hpts : ∀ p ∈ pts, f64IsNan p.1 = false := fun p hp =>
        hn p.1 (by simpa [seriesTimestamps] using List.mem_map_of_mem Prod.fst hp)
      simp [sortSeries, filterKey, sortPoints_filter_key pts hpts k]
    | u64Series pts =>
      have hpts : ∀ p ∈ pts, f64IsNan p.1 = false := fun p hp =>
        hn p.1 (by simpa [seriesTimestamps] using List.mem_map_of_mem Prod.fst hp)
      simp [sortSeries, filterKey, sortPoints_filter_key pts hpts k]
    | f64Series pts =>
      have hpts : ∀ p ∈ pts, f64IsNan p.1 = false := fun p hp =>
        hn p.1 (by simpa [seriesTimestamps] using List.mem_map_of_mem Prod.fst hp)
      simp [sortSeries, filterKey, sortPoints_filter_key pts hpts k]
    | stringSeries pts =>
      have hpts : ∀ p ∈ pts, f64IsNan p.1 = false := fun p hp =>
        hn p.1 (by simpa [seriesTimestamps] using List.mem_map_of_mem Prod.fst hp)
      simp [sortSeries, filterKey, sortPoints_filter_key pts hpts k]

/-- C8 witness: a one-series store with two points in reversed timestamp
order (patterns 2 and 1 are tiny positive doubles, not NaN). -/
theorem sorted_emission_stable_witness :
    (∀ e ∈ ([([83], SeriesData.u64Series [(2, 7), (1, 5)])] : DataStore),
        ∀ t ∈ seriesTimestamps e.2, f64IsNan t = false) ∧
    ∀ e ∈ sort_by_timestamp [([83], SeriesData.u64Series [(2, 7), (1, 5)])],
      (seriesTimestamps e.2).Pairwise (fun a b => f64Le a b = true) ∧
      ∃ e' ∈ ([([83], SeriesData.u64Series [(2, 7), (1, 5)])] : DataStore),
        e.1 = e'.1 ∧ e.2 = sortSeries e'.2 ∧
        ∀ k : Int, filterKey k e.2 = filterKey k e'.2 :=
  ⟨by decide, sorted_emission_stable _ (by decide)⟩

/-- C9.  Stream framing: for a store whose series are of the four kinds
`i64`/`u64`/`f64`/`String` (the only kinds this model admits, matching the
claim's premise), `write_to_stream` emits exactly the §6 framing of the sorted
store: the 8 magic bytes `BLF2MDF\x01`, the series count as little-endian
`u32`, and per series the `u16` name length, the name bytes, the kind byte
(1=I64, 2=U64, 3=F64, 4=String), the `u32` point count and the points —
little-endian `f64` timestamp plus 8 value bytes for the numeric kinds, or
timestamp, `u16` length and UTF-8 bytes for strings. -/
theorem stream_framing_spec (store : DataStore) :
    write_to_stream store = specStream (sort_by_timestamp store) := by
  unfold write_to_stream specStream
  have hmagic : magicBytes = specMagic := rfl
  rw [hmagic]
  refine congrArg _ (congrArg _ (congrArg _ ?_))
  refine List.map_congr_left ?_
  rintro ⟨name, sd⟩ _
  cases sd <;>
    simp [writeSeriesBytes, specKindByte, specPointCount, specPointsBytes,
      List.append_assoc]

end Blf2Mdf
